import Mathlib

set_option maxRecDepth 4000

deriving instance DecidableEq for Except

/- Verification development for the CodeConstellation ProjectScanner
   (src/ProjectScanner.ts).  The scanner walks a workspace directory,
   filters entries by dotfile / denylist / ignore rules, collects one
   Node per accepted source file, extracts import strings per language
   with regular expressions, and resolves relative imports to files in
   the tree, producing a Graph of nodes and links.

   The embedding below models the filesystem as a tree, the gitignore
   predicate (the external npm `ignore` library) as an abstract Boolean
   function on relative paths, and each of the scanner's regexes as an
   explicit backtracking-faithful scanning function over character
   lists.  All definitions are executable and kernel-reducible. -/

namespace ProjectScanner

/- Data model (src/types/index.ts).  The optional layout fields
   (x, y, fx, fy, vx, vy) belong to the excluded visualization layer and
   are never written by the scanner, so they are omitted. -/

structure Node where
  id : String
  name : String
  type : String
  size : Nat
  preview : String
  deriving DecidableEq, Repr

structure Link where
  source : String
  target : String
  deriving DecidableEq, Repr

structure GraphData where
  nodes : List Node
  links : List Link
  deriving DecidableEq, Repr

/- Filesystem model.  A file carries an `ok` flag: `false` means that
   `fs.promises.stat` / `readFile` on it fails (permission error etc.).
   A directory carries an `ok` flag: `false` means `fs.promises.readdir`
   on it throws.  Existence checks (`fs.existsSync`) only consult the
   tree structure, never the flags, matching the fact that existence of
   a path is independent of its readability. -/

mutual
inductive FSTree where
  | file (ok : Bool) (content : String)
  | dir (ok : Bool) (entries : FSList)

inductive FSList where
  | nil
  | cons (name : String) (t : FSTree) (rest : FSList)
end

/- Character classes used by the JavaScript regexes: \w and \s
   (ASCII portion; the scanner's patterns only meet ASCII here). -/

def isWordChar (c : Char) : Bool :=
  c.isAlphanum || c == '_'

def isSpaceChar (c : Char) : Bool :=
  c == ' ' || c == '\t' || c == '\n' || c == '\r' || c == '\x0b' || c == '\x0c'

def isQuoteChar (c : Char) : Bool :=
  c == '\'' || c == '"'

/- Basic matching combinators over character lists. -/

def matchLit : List Char → List Char → Option (List Char)
  | [], cs => some cs
  | _ :: _, [] => none
  | l :: ls, c :: cs => if c == l then matchLit ls cs else none

def munchSpaces : List Char → List Char
  | [] => []
  | c :: cs => if isSpaceChar c then munchSpaces cs else c :: cs

def munchSpaces1 : List Char → Option (List Char)
  | [] => none
  | c :: cs => if isSpaceChar c then some (munchSpaces cs) else none

def munchWord : List Char → List Char × List Char
  | [] => ([], [])
  | c :: cs =>
    if isWordChar c then
      let r := munchWord cs
      (c :: r.1, r.2)
    else ([], c :: cs)

def munchWord1 (cs : List Char) : Option (String × List Char) :=
  match munchWord cs with
  | ([], _) => none
  | (w, rest) => some (String.mk w, rest)

def quoteOpen : List Char → Option (List Char)
  | [] => none
  | c :: cs => if isQuoteChar c then some cs else none

/- Lazy capture group (.*?)['"]: the shortest run of non-newline
   characters up to the first quote of either kind. -/
def captureToQuote : List Char → Option (List Char × List Char)
  | [] => none
  | c :: cs =>
    if isQuoteChar c then some ([], cs)
    else if c == '\n' then none
    else
      match captureToQuote cs with
      | some (w, rest) => some (c :: w, rest)
      | none => none

/- ECMAScript-family import extraction, the regex whose alternatives
   are import\s+.*?from\s+['"](.*?)['"], then require\(['"](.*?)['"]\),
   then import\(['"](.*?)['"]\), run with exec in a /g loop. -/

def esFromTail (cs : List Char) : Option (String × List Char) := do
  let r1 ← matchLit "from".data cs
  let r2 ← munchSpaces1 r1
  let r3 ← quoteOpen r2
  let (w, rest) ← captureToQuote r3
  pure (String.mk w, rest)

/- The lazy .*? before "from": try the full tail at each position,
   advancing one non-newline character at a time. -/
def esAlt1Scan : List Char → Option (String × List Char)
  | [] => none
  | c :: cs =>
    match esFromTail (c :: cs) with
    | some r => some r
    | none => if c == '\n' then none else esAlt1Scan cs

def esAlt1 (cs : List Char) : Option (String × List Char) := do
  let r1 ← matchLit "import".data cs
  let r2 ← munchSpaces1 r1
  esAlt1Scan r2

def esAlt2 (cs : List Char) : Option (String × List Char) := do
  let r1 ← matchLit "require(".data cs
  let r2 ← quoteOpen r1
  let (w, r3) ← captureToQuote r2
  let r4 ← matchLit ")".data r3
  pure (String.mk w, r4)

def esAlt3 (cs : List Char) : Option (String × List Char) := do
  let r1 ← matchLit "import(".data cs
  let r2 ← quoteOpen r1
  let (w, r3) ← captureToQuote r2
  let r4 ← matchLit ")".data r3
  pure (String.mk w, r4)

def esTryMatch (cs : List Char) : Option (String × List Char) :=
  match esAlt1 cs with
  | some r => some r
  | none =>
    match esAlt2 cs with
    | some r => some r
    | none => esAlt3 cs

/- Every successful match consumes at least one character, so fuel
   equal to the length of the content never runs out. -/
def esExtractAux : Nat → List Char → List String
  | 0, _ => []
  | _ + 1, [] => []
  | fuel + 1, c :: cs =>
    match esTryMatch (c :: cs) with
    | some (cap, rest) => cap :: esExtractAux fuel rest
    | none => esExtractAux fuel cs

def esExtract (content : String) : List String :=
  esExtractAux content.data.length content.data

/- Stylesheet import extraction, the regex
   @import\s+['"](.*?)['"]|url\(['"](.*?)['"]\) -/

def cssAlt1 (cs : List Char) : Option (String × List Char) := do
  let r1 ← matchLit "@import".data cs
  let r2 ← munchSpaces1 r1
  let r3 ← quoteOpen r2
  let (w, rest) ← captureToQuote r3
  pure (String.mk w, rest)

def cssAlt2 (cs : List Char) : Option (String × List Char) := do
  let r1 ← matchLit "url(".data cs
  let r2 ← quoteOpen r1
  let (w, r3) ← captureToQuote r2
  let r4 ← matchLit ")".data r3
  pure (String.mk w, r4)

def cssTryMatch (cs : List Char) : Option (String × List Char) :=
  match cssAlt1 cs with
  | some r => some r
  | none => cssAlt2 cs

def cssExtractAux : Nat → List Char → List String
  | 0, _ => []
  | _ + 1, [] => []
  | fuel + 1, c :: cs =>
    match cssTryMatch (c :: cs) with
    | some (cap, rest) => cap :: cssExtractAux fuel rest
    | none => cssExtractAux fuel cs

def cssExtract (content : String) : List String :=
  cssExtractAux content.data.length content.data

/- Python import extraction, the regex
   ^import\s+(\w+)|^from\s+(\w+)\s+import
   with the m flag: both alternatives are anchored at line starts.
   Note \w+ cannot cross a dot, so a dotted module path captures at
   most its first component, and `from pkg.sub import y` matches
   neither alternative (after the first \w+ run the regex requires
   whitespace, but a dot follows). -/

def pyAlt1 (cs : List Char) : Option (String × List Char) := do
  let r1 ← matchLit "import".data cs
  let r2 ← munchSpaces1 r1
  munchWord1 r2

def pyAlt2 (cs : List Char) : Option (String × List Char) := do
  let r1 ← matchLit "from".data cs
  let r2 ← munchSpaces1 r1
  let (w, r3) ← munchWord1 r2
  let r4 ← munchSpaces1 r3
  let r5 ← matchLit "import".data r4
  pure (w, r5)

def pyTryMatch (cs : List Char) : Option (String × List Char) :=
  match pyAlt1 cs with
  | some r => some r
  | none => pyAlt2 cs

def pyExtractAux : Nat → Bool → List Char → List String
  | 0, _, _ => []
  | _ + 1, _, [] => []
  | fuel + 1, atStart, c :: cs =>
    match (if atStart then pyTryMatch (c :: cs) else none) with
    | some (cap, rest) => cap :: pyExtractAux fuel false rest
    | none => pyExtractAux fuel (c == '\n') cs

def pyExtract (content : String) : List String :=
  pyExtractAux content.data.length true content.data

/- Path and string utilities, modelling the Node.js path functions used
   by the scanner on a POSIX filesystem.  Relative paths are lists of
   segments; segment lists are joined with '/'. -/

def splitCharsOn (sep : Char) : List Char → List (List Char)
  | [] => [[]]
  | c :: cs =>
    let r := splitCharsOn sep cs
    if c == sep then [] :: r
    else
      match r with
      | h :: t => (c :: h) :: t
      | [] => [[c]]

def joinChars (sep : Char) : List (List Char) → List Char
  | [] => []
  | [x] => x
  | x :: xs => x ++ sep :: joinChars sep xs

def joinSegs (l : List String) : String :=
  String.mk (joinChars '/' (l.map (fun s => s.data)))

def splitSlash (s : String) : List String :=
  (splitCharsOn '/' s.data).map String.mk

def splitDots (s : String) : List String :=
  (splitCharsOn '.' s.data).map String.mk

def leadsWith (pre s : String) : Bool :=
  leadsWithChars pre.data s.data
where
  leadsWithChars : List Char → List Char → Bool
  | [], _ => true
  | _ :: _, [] => false
  | p :: ps, c :: cs => c == p && leadsWithChars ps cs

/- path.extname: the suffix of the base name starting at its last dot,
   except that a dot at position 0 (a dotfile) does not count. -/

def extTail : List Char → Option (List Char)
  | [] => none
  | c :: cs =>
    match extTail cs with
    | some e => some e
    | none => if c == '.' then some ('.' :: cs) else none

def extname (name : String) : String :=
  match name.data with
  | [] => ""
  | _ :: rest =>
    match extTail rest with
    | some e => String.mk e
    | none => ""

def lcChar (c : Char) : Char :=
  if 'A' ≤ c && c ≤ 'Z' then Char.ofNat (c.toNat + 32) else c

def lowerStr (s : String) : String :=
  String.mk (s.data.map lcChar)

def charBytes (c : Char) : Nat :=
  if c.toNat < 128 then 1
  else if c.toNat < 2048 then 2
  else if c.toNat < 65536 then 3
  else 4

/- stat.size: the byte length of the file content (UTF-8). -/
def byteLen (s : String) : Nat :=
  s.data.foldl (fun n c => n + charBytes c) 0

/- content.split of newline, slice(0, 10), join of newline. -/
def previewOf (content : String) : String :=
  String.mk (joinChars '\n' (((splitCharsOn '\n' content.data).take 10)))

/- Filesystem lookup, modelling fs.existsSync relative to the scan
   root.  findL returns the first entry with the given name. -/

def findL : FSList → String → Option FSTree
  | .nil, _ => none
  | .cons nm sub rest, name => if nm == name then some sub else findL rest name

def lookupT : List String → FSTree → Option FSTree
  | [], t => some t
  | n :: rest, .dir _ es =>
    match findL es n with
    | some sub => lookupT rest sub
    | none => none
  | _ :: _, .file _ _ => none

/- The scanner: workspaceRoot is the root of the FSTree; `ig` models
   `this.ig.ignores` (the external npm ignore library loaded from the
   root .gitignore in the constructor), taken as an abstract predicate
   on scan-root-relative paths. -/

structure Scanner where
  fs : FSTree
  ig : String → Bool

/- fs.existsSync(path.join(workspaceRoot, relativePath)).  path.join
   normalizes away empty segments, and existence ignores ok flags. -/
def Scanner.fileExists (sc : Scanner) (rel : String) : Bool :=
  (lookupT ((splitSlash rel).filter (fun s => !(s == ""))) sc.fs).isSome

def supportedExtensions : List String :=
  [".ts", ".tsx", ".js", ".jsx", ".css", ".scss",
   ".html", ".py", ".java", ".c", ".cpp", ".h",
   ".json", ".md", ".go", ".rs", ".php"]

def isCodeFile (filename : String) : Bool :=
  supportedExtensions.contains (lowerStr (extname filename))

def denylist : List String :=
  ["node_modules", "dist", "out", "build", "target", "vendor"]

/- The walker's three skip rules: dotfile (except .gitignore),
   denylist, ignore predicate. -/
def skipEntry (sc : Scanner) (d : List String) (name : String) : Bool :=
  (leadsWith "." name && !(name == ".gitignore"))
    || denylist.contains name
    || sc.ig (joinSegs (d ++ [name]))

/- path.resolve(dir, importPath) followed by
   path.relative(workspaceRoot, ·): process the import's segments over
   the importing directory's segment stack; `..` pops, and pops past
   the root accumulate as leading parent markers (the workspace root is
   assumed deeper than the number of pops, the ordinary case). -/
def normSegs : List String → Nat → List String → Nat × List String
  | stack, ups, [] => (ups, stack)
  | stack, ups, s :: rest =>
    if s == "" || s == "." then normSegs stack ups rest
    else if s == ".." then
      match stack with
      | [] => normSegs [] (ups + 1) rest
      | _ :: _ => normSegs stack.dropLast ups rest
    else normSegs (stack ++ [s]) ups rest

def relOfParts (parts : Nat × List String) : String :=
  joinSegs (List.replicate parts.1 ".." ++ parts.2)

def probeExts : List String :=
  [".ts", ".tsx", ".js", ".jsx", ".css", ".scss", "/index.ts", "/index.js"]

def probeFirst (sc : Scanner) (base : String) : String :=
  match probeExts.find? (fun e => sc.fileExists (base ++ e)) with
  | some e => base ++ e
  | none => base

/- The body of the per-import loop of parseDependenciesFromContent:
   one raw import string to zero-or-one Link. -/
def resolveImport (sc : Scanner) (d : List String) (ext : String)
    (relativeId : String) (ip : String) : List Link :=
  if ip == "" then []
  else if leadsWith "." ip then
    let base := relOfParts (normSegs d 0 (splitSlash ip))
    let target := if sc.fileExists base then base else probeFirst sc base
    if !(leadsWith ".." target) && sc.fileExists target then
      [⟨relativeId, target⟩]
    else []
  else if ext == ".py" then
    let possiblePyFile := joinSegs (splitDots ip) ++ ".py"
    if sc.fileExists possiblePyFile then [⟨relativeId, possiblePyFile⟩]
    else []
  else []

def esExts : List String := [".ts", ".tsx", ".js", ".jsx"]

def importPathsOf (ext : String) (content : String) : List String :=
  if esExts.contains ext then esExtract content
  else if ext == ".css" || ext == ".scss" then cssExtract content
  else if ext == ".py" then pyExtract content
  else []

/- parseDependenciesFromContent: extract raw import strings by the
   file's (lower-cased) extension, then resolve each in order. -/
def parseDeps (sc : Scanner) (content : String) (d : List String)
    (name : String) (relativeId : String) : List Link :=
  let ext := lowerStr (extname name)
  (importPathsOf ext content).foldl
    (fun acc ip => acc ++ resolveImport sc d ext relativeId ip) []

/- processFile: stat + read (both fail iff ok is false, caught and
   skipped), then push the Node and parse its dependencies. -/
def processFile (sc : Scanner) (d : List String) (name : String)
    (ok : Bool) (content : String) : List Node × List Link :=
  if ok then
    let relativePath := joinSegs (d ++ [name])
    ([⟨relativePath, name, extname name, byteLen content, previewOf content⟩],
     parseDeps sc content d name relativePath)
  else ([], [])

/- The traversal.  A result is ((nodes, links), ok): ok is false when a
   readdir threw, which aborts the enclosing loops (the partial data
   already pushed is retained, matching the mutable accumulators). -/

mutual
def scanTree (sc : Scanner) (d : List String) (name : String) :
    FSTree → (List Node × List Link) × Bool
  | .file ok content =>
    ((if isCodeFile name then processFile sc d name ok content else ([], [])),
     true)
  | .dir b es =>
    if b then scanEntries sc (d ++ [name]) es else (([], []), false)

def scanEntries (sc : Scanner) (d : List String) :
    FSList → (List Node × List Link) × Bool
  | .nil => (([], []), true)
  | .cons name sub rest =>
    if skipEntry sc d name then scanEntries sc d rest
    else
      let r1 := scanTree sc d name sub
      if r1.2 then
        let r2 := scanEntries sc d rest
        ((r1.1.1 ++ r2.1.1, r1.1.2 ++ r2.1.2), r2.2)
      else (r1.1, false)
end

/- scanDirectory applied to the workspace root: readdir on a missing
   path or a plain file throws (root-level failure). -/
def scanDirectory (sc : Scanner) : (List Node × List Link) × Bool :=
  match sc.fs with
  | .file _ _ => (([], []), false)
  | .dir false _ => (([], []), false)
  | .dir true es => scanEntries sc [] es

/- The mutable accumulators of the ProjectScanner instance. -/
structure ScannerState where
  nodes : List Node
  links : List Link
  deriving DecidableEq, Repr

/- scan(): reset this.nodes / this.links, walk, and return the graph;
   a readdir failure anywhere in the walk rejects the promise, leaving
   whatever was accumulated in the instance state. -/
def scanStateful (sc : Scanner) (_st : ScannerState) :
    Except Unit GraphData × ScannerState :=
  let r := scanDirectory sc
  ((if r.2 then Except.ok ⟨r.1.1, r.1.2⟩ else Except.error ()),
   ⟨r.1.1, r.1.2⟩)

def scan (sc : Scanner) : Except Unit GraphData :=
  (scanStateful sc ⟨[], []⟩).1

def scanOk (sc : Scanner) : Bool :=
  match scan sc with
  | .ok _ => true
  | .error _ => false

def scanGraph (sc : Scanner) : GraphData :=
  match scan sc with
  | .ok g => g
  | .error _ => ⟨[], []⟩

def rootIsDir : FSTree → Bool
  | .dir _ _ => true
  | .file _ _ => false

def rootListable : FSTree → Bool
  | .dir true _ => true
  | _ => false

/- Spec-side characterizations, used to compare the scan against the
   specification (refinement): the set of accepted files, traversal
   health, and well-formedness of a filesystem tree. -/

/- All directories in the tree are listable (no readdir can fail). -/
mutual
def adlT : FSTree → Bool
  | .file _ _ => true
  | .dir b es => b && adlL es

def adlL : FSList → Bool
  | .nil => true
  | .cons _ sub rest => adlT sub && adlL rest
end

def hasName : FSList → String → Bool
  | .nil, _ => false
  | .cons nm _ rest, name => nm == name || hasName rest name

/- A real directory entry name: nonempty and without a path separator. -/
def goodName (s : String) : Bool :=
  !(s == "") && s.data.all (fun c => !(c == '/'))

/- Well-formed tree: every directory has pairwise distinct, real entry
   names (true of any actual filesystem). -/
mutual
def wfT : FSTree → Bool
  | .file _ _ => true
  | .dir _ es => wfL es

def wfL : FSList → Bool
  | .nil => true
  | .cons name sub rest =>
    goodName name && !(hasName rest name) && wfT sub && wfL rest
end

/- Modelled from the spec: the accepted files of a walk, i.e. the files
   the per-file pipeline yields a Node for — reachable under the skip
   rules, extension in the allow-list, and stat/read succeeding (a file
   whose stat/read fails is skipped per the spec's error taxonomy).
   Entries are (full relative segments, base name, content). -/
mutual
def accTreeS (sc : Scanner) (d : List String) (name : String) :
    FSTree → List (List String × String × String)
  | .file ok content =>
    if isCodeFile name && ok then [(d ++ [name], name, content)] else []
  | .dir _ es => accEntriesS sc (d ++ [name]) es

def accEntriesS (sc : Scanner) (d : List String) :
    FSList → List (List String × String × String)
  | .nil => []
  | .cons name sub rest =>
    (if skipEntry sc d name then [] else accTreeS sc d name sub)
      ++ accEntriesS sc d rest
end

def acceptedFilesRoot (sc : Scanner) : List (List String × String × String) :=
  match sc.fs with
  | .dir true es => accEntriesS sc [] es
  | _ => []

/- The Node the per-file pipeline produces for an accepted file. -/
def mkNodeF (f : List String × String × String) : Node :=
  ⟨joinSegs f.1, f.2.1, extname f.2.1, byteLen f.2.2, previewOf f.2.2⟩

/- The traversal reaches a file along the given path, every ancestor
   passing the skip rules (and being listable), the final component
   naming a file in the allow-list whose ok flag equals `want`. -/
def filePathAcc (sc : Scanner) : List String → FSList → List String → Bool → Bool
  | _, _, [], _ => false
  | d, es, [name], want =>
    match findL es name with
    | some (FSTree.file ok _) =>
      !(skipEntry sc d name) && isCodeFile name && (ok == want)
    | _ => false
  | d, es, name :: rest, want =>
    match findL es name with
    | some (FSTree.dir true es2) =>
      !(skipEntry sc d name) && filePathAcc sc (d ++ [name]) es2 rest want
    | _ => false

def filePathAccRoot (sc : Scanner) (p : List String) (want : Bool) : Bool :=
  match sc.fs with
  | .dir true es => filePathAcc sc [] es p want
  | _ => false

/- Concrete filesystems exercising the claims. -/

def emptySc : Scanner := ⟨.dir true .nil, fun _ => false⟩

/- A Python file with a dotted from-import, next to pkg/sub.py. -/
def pyDottedFs : FSTree :=
  .dir true (.cons "main.py" (.file true "from pkg.sub import y\n")
    (.cons "pkg" (.dir true (.cons "sub.py" (.file true "x = 1\n") .nil)) .nil))

def pyDottedSc : Scanner := ⟨pyDottedFs, fun _ => false⟩

/- A Python file with a single-component import, next to util.py. -/
def pySimpleFs : FSTree :=
  .dir true (.cons "main.py" (.file true "import util\n")
    (.cons "util.py" (.file true "x = 1\n") .nil))

def pySimpleSc : Scanner := ⟨pySimpleFs, fun _ => false⟩

/- A listable root with an unlistable subdirectory. -/
def badSubdirFs : FSTree :=
  .dir true (.cons "sub" (.dir false .nil)
    (.cons "a.ts" (.file true "const a = 1;\n") .nil))

def badSubdirSc : Scanner := ⟨badSubdirFs, fun _ => false⟩

/- A root that is a plain file, not a directory. -/
def rootFileSc : Scanner := ⟨.file true "not a directory", fun _ => false⟩

/- An accepted file with an upper-case extension. -/
def upperExtFs : FSTree :=
  .dir true (.cons "Foo.TS" (.file true "const a = 1;\n") .nil)

def upperExtSc : Scanner := ⟨upperExtFs, fun _ => false⟩

/- a.ts imports './sub' where sub/ holds only index.ts. -/
def indexFallbackFs : FSTree :=
  .dir true (.cons "a.ts" (.file true "import x from './sub';\n")
    (.cons "sub" (.dir true (.cons "index.ts" (.file true "export const x = 1;\n") .nil)) .nil))

def indexFallbackSc : Scanner := ⟨indexFallbackFs, fun _ => false⟩

/- a.ts imports './b' where b.ts exists (exact-extension probe). -/
def exactMatchFs : FSTree :=
  .dir true (.cons "a.ts" (.file true "import x from './b';\n")
    (.cons "b.ts" (.file true "const a = 1;\n") .nil))

def exactMatchSc : Scanner := ⟨exactMatchFs, fun _ => false⟩

/- a.ts imports './b' where b is an extensionless file: the link is
   emitted (exact existence) but b never becomes a Node. -/
def extensionlessFs : FSTree :=
  .dir true (.cons "a.ts" (.file true "import x from './b';\n")
    (.cons "b" (.file true "whatever") .nil))

def extensionlessSc : Scanner := ⟨extensionlessFs, fun _ => false⟩

/- Three accepted files, the middle one failing stat/read. -/
def isolationFs : FSTree :=
  .dir true (.cons "a.ts" (.file true "const a = 1;\n")
    (.cons "b.ts" (.file false "unreadable")
      (.cons "c.ts" (.file true "const a = 1;\n")
        (.cons "notes.txt" (.file true "hello") .nil))))

def isolationSc : Scanner := ⟨isolationFs, fun _ => false⟩

/- General helper lemmas. -/

theorem mem_foldl_append {α β : Type} (f : α → List β) (l : β) (xs : List α) (init : List β) :
    l ∈ xs.foldl (fun acc x => acc ++ f x) init ↔ l ∈ init ∨ ∃ x ∈ xs, l ∈ f x := by
  induction xs generalizing init with
  | nil => simp
  | cons x xs ih =>
    rw [List.foldl_cons, ih]
    simp [List.mem_append, or_assoc]

theorem foldl_append_nil {α β : Type} (f : α → List β) (xs : List α)
    (h : ∀ x ∈ xs, f x = []) (init : List β) :
    xs.foldl (fun acc x => acc ++ f x) init = init := by
  induction xs generalizing init with
  | nil => rfl
  | cons x xs ih =>
    rw [List.foldl_cons, h x (by simp)]
    rw [List.append_nil]
    exact ih (fun y hy => h y (by simp [hy])) init

theorem string_mk_data (s : String) : String.mk s.data = s := rfl

theorem string_data_inj : Function.Injective String.data := by
  intro a b h
  exact congrArg String.mk h

theorem string_beq_empty_false {s : String} (h : s.data ≠ []) : (s == "") = false := by
  cases hb : s == ""
  · rfl
  · exact absurd (congrArg String.data (eq_of_beq hb)) h

/- Facts about the word-character muncher and Python extraction. -/

theorem munchWord_all (cs : List Char) : (munchWord cs).1.all isWordChar = true := by
  induction cs with
  | nil => rfl
  | cons c cs ih =>
    unfold munchWord
    cases h : isWordChar c with
    | false => simp [h]
    | true => simp [h, ih]

theorem munchWord1_some {cs : List Char} {w : String} {rest : List Char}
    (h : munchWord1 cs = some (w, rest)) :
    w.data ≠ [] ∧ w.data.all isWordChar = true := by
  unfold munchWord1 at h
  have hall := munchWord_all cs
  cases hm : munchWord cs with
  | mk fst snd =>
    rw [hm] at h hall
    cases fst with
    | nil => simp at h
    | cons a as =>
      simp at h
      obtain ⟨hw, _⟩ := h
      subst hw
      exact ⟨by simp, hall⟩

theorem pyAlt1_word {cs : List Char} {m : String} {rest : List Char}
    (h : pyAlt1 cs = some (m, rest)) :
    m.data ≠ [] ∧ m.data.all isWordChar = true := by
  unfold pyAlt1 at h
  cases h1 : matchLit "import".data cs with
  | none => rw [h1] at h; simp [Option.bind_eq_bind] at h
  | some r1 =>
    rw [h1] at h
    simp only [Option.bind_eq_bind, Option.some_bind] at h
    cases h2 : munchSpaces1 r1 with
    | none => rw [h2] at h; simp [Option.bind_eq_bind] at h
    | some r2 =>
      rw [h2] at h
      simp only [Option.bind_eq_bind, Option.some_bind] at h
      exact munchWord1_some h

theorem pyAlt2_word {cs : List Char} {m : String} {rest : List Char}
    (h : pyAlt2 cs = some (m, rest)) :
    m.data ≠ [] ∧ m.data.all isWordChar = true := by
  unfold pyAlt2 at h
  cases h1 : matchLit "from".data cs with
  | none => rw [h1] at h; simp [Option.bind_eq_bind] at h
  | some r1 =>
    rw [h1] at h
    simp only [Option.bind_eq_bind, Option.some_bind] at h
    cases h2 : munchSpaces1 r1 with
    | none => rw [h2] at h; simp [Option.bind_eq_bind] at h
    | some r2 =>
      rw [h2] at h
      simp only [Option.bind_eq_bind, Option.some_bind] at h
      cases h3 : munchWord1 r2 with
      | none => rw [h3] at h; simp [Option.bind_eq_bind] at h
      | some wr =>
        rw [h3] at h
        simp only [Option.bind_eq_bind, Option.some_bind] at h
        obtain ⟨w, r3⟩ := wr
        cases h4 : munchSpaces1 r3 with
        | none => rw [h4] at h; simp [Option.bind_eq_bind] at h
        | some r4 =>
          rw [h4] at h
          simp only [Option.bind_eq_bind, Option.some_bind] at h
          cases h5 : matchLit "import".data r4 with
          | none => rw [h5] at h; simp [Option.bind_eq_bind] at h
          | some r5 =>
            rw [h5] at h
            simp only [Option.bind_eq_bind, Option.some_bind, Option.pure_def,
              Option.some.injEq, Prod.mk.injEq] at h
            obtain ⟨hw, _⟩ := h
            subst hw
            exact munchWord1_some h3

theorem pyTryMatch_word {cs : List Char} {m : String} {rest : List Char}
    (h : pyTryMatch cs = some (m, rest)) :
    m.data ≠ [] ∧ m.data.all isWordChar = true := by
  unfold pyTryMatch at h
  cases h1 : pyAlt1 cs with
  | some r => rw [h1] at h; cases h; exact pyAlt1_word h1
  | none => rw [h1] at h; exact pyAlt2_word h

theorem pyExtractAux_word :
    ∀ (fuel : Nat) (b : Bool) (cs : List Char) (m : String),
      m ∈ pyExtractAux fuel b cs →
      m.data ≠ [] ∧ m.data.all isWordChar = true := by
  intro fuel
  induction fuel with
  | zero => intro b cs m hm; simp [pyExtractAux] at hm
  | succ n ih =>
    intro b cs m hm
    cases cs with
    | nil => simp [pyExtractAux] at hm
    | cons c cs =>
      unfold pyExtractAux at hm
      cases hb : b with
      | false =>
        rw [hb] at hm
        simp at hm
        exact ih _ _ _ hm
      | true =>
        rw [hb] at hm
        cases ht : pyTryMatch (c :: cs) with
        | none =>
          simp [ht] at hm
          exact ih _ _ _ hm
        | some r =>
          obtain ⟨cap, rest⟩ := r
          simp [ht] at hm
          cases hm with
          | inl he => subst he; exact pyTryMatch_word ht
          | inr hr => exact ih _ _ _ hr

theorem pyExtract_word {content : String} {m : String} (hm : m ∈ pyExtract content) :
    m.data ≠ [] ∧ m.data.all isWordChar = true :=
  pyExtractAux_word _ _ _ _ hm

theorem word_not_dot {c : Char} (h : isWordChar c = true) : (c == '.') = false := by
  cases hc : c == '.'
  · rfl
  · rw [eq_of_beq hc] at h
    simp [isWordChar] at h

theorem splitCharsOn_no_sep (sep : Char) :
    ∀ l : List Char, (∀ c ∈ l, (c == sep) = false) → splitCharsOn sep l = [l] := by
  intro l
  induction l with
  | nil => intro _; rfl
  | cons c cs ih =>
    intro h
    unfold splitCharsOn
    rw [ih (fun x hx => h x (by simp [hx]))]
    simp [h c (by simp)]

/- Facts about leadsWith (String.startsWith). -/

theorem leadsWithChars_append (ps cs ds : List Char)
    (h : leadsWith.leadsWithChars ps cs = true) :
    leadsWith.leadsWithChars ps (cs ++ ds) = true := by
  induction ps generalizing cs with
  | nil => rfl
  | cons p ps ih =>
    cases cs with
    | nil => simp [leadsWith.leadsWithChars] at h
    | cons c cs =>
      simp [leadsWith.leadsWithChars] at h ⊢
      exact ⟨h.1, ih cs h.2⟩

theorem leadsWith_append (p s t : String) (h : leadsWith p s = true) :
    leadsWith p (s ++ t) = true := by
  unfold leadsWith at h ⊢
  rw [String.data_append]
  exact leadsWithChars_append _ _ _ h

theorem leadsWith_dotdot_join (l : List String) :
    leadsWith ".." (joinSegs (".." :: l)) = true := by
  cases l with
  | nil => decide
  | cons s t =>
    show leadsWith.leadsWithChars _ _ = true
    simp [joinSegs, joinChars, leadsWith.leadsWithChars]

theorem leadsWith_head_ne {s : String} {c : Char} {rest : List Char}
    (hd : s.data = c :: rest) (hne : (c == '.') = false) :
    leadsWith "." s = false ∧ leadsWith ".." s = false := by
  unfold leadsWith
  rw [hd]
  constructor
  · simp [leadsWith.leadsWithChars, hne]
  · simp [leadsWith.leadsWithChars, hne]

theorem leadsWith_dot_ne_empty {ip : String} (h : leadsWith "." ip = true) :
    (ip == "") = false := by
  apply string_beq_empty_false
  intro hd
  unfold leadsWith at h
  rw [hd] at h
  simp [leadsWith.leadsWithChars] at h

/- The Python branch of resolveImport for a word-character module. -/

theorem resolveImport_py (sc : Scanner) (d : List String) (rid : String) {m : String}
    (hne : m.data ≠ []) (hall : m.data.all isWordChar = true) :
    resolveImport sc d ".py" rid m =
      if sc.fileExists (m ++ ".py") then [⟨rid, m ++ ".py"⟩] else [] := by
  have hm0 : (m == "") = false := string_beq_empty_false hne
  obtain ⟨c, rest, hd⟩ : ∃ c rest, m.data = c :: rest := by
    cases hmd : m.data with
    | nil => exact absurd hmd hne
    | cons c rest => exact ⟨c, rest, rfl⟩
  have hc : isWordChar c = true := by
    have := hall
    rw [hd] at this
    simp at this
    exact this.1
  have hdot := leadsWith_head_ne hd (word_not_dot hc)
  have hsplit : splitDots m = [m] := by
    unfold splitDots
    rw [splitCharsOn_no_sep '.' m.data]
    · rfl
    · intro x hx
      have hx' : isWordChar x = true := by
        rw [List.all_eq_true] at hall
        exact hall x hx
      exact word_not_dot hx'
  have hjoin : joinSegs [m] = m := rfl
  unfold resolveImport
  rw [hm0, hdot.1]
  simp only [Bool.false_eq_true, if_false]
  rw [hsplit, hjoin]
  rfl

/- C8 requires nothing beyond the definitions: the accumulators are
   replaced by the walk's result regardless of the incoming state. -/

/-- C8: running scan() twice over an unchanged tree yields equal graphs
(in fact syntactically equal ones): the node and link accumulators are
reset at the start of every scan() invocation, so the result never
depends on the instance state left by a previous scan. -/
theorem c8_scan_state_reset (sc : Scanner) (st1 st2 : ScannerState) :
    (scanStateful sc st1).1 = (scanStateful sc st2).1 ∧
    (scanStateful sc ((scanStateful sc st1).2)).1 = (scanStateful sc st1).1 ∧
    (scanStateful sc st1).1 = scan sc :=
  ⟨rfl, rfl, rfl⟩

/-- C4 evaluated at the failing input: a.ts imports './sub' where sub/
contains only index.ts.  fs.existsSync is true for the directory sub
itself, so the scanner links to "sub" and the /index.ts probe never
runs; the spec instead promises a Link to "sub/index.ts". -/
theorem c4_index_fallback_shadowed :
    scanOk indexFallbackSc = true ∧
    (scanGraph indexFallbackSc).links = [⟨"a.ts", "sub"⟩] ∧
    indexFallbackSc.fileExists "sub/index.ts" = true ∧
    ¬ (scanGraph indexFallbackSc).links = [⟨"a.ts", "sub/index.ts"⟩] := by
  decide

/-- C1 counterexample: a Python file containing the dotted import
`from pkg.sub import y` with pkg/sub.py present produces no link at
all (the extraction regex captures nothing), contradicting the claim
that a Link to pkg/sub.py is emitted exactly when that file exists. -/
theorem c1_dotted_import_cex :
    pyExtract "from pkg.sub import y\n" = [] ∧
    pyDottedSc.fileExists "pkg/sub.py" = true ∧
    scanOk pyDottedSc = true ∧
    (scanGraph pyDottedSc).links = [] := by
  decide

/-- C2 counterexample: a listable root with an unlistable subdirectory
makes the whole scan fail, contradicting the claim that a failure to
list an entry below the root is recovered and never fatal. -/
theorem c2_subdir_failure_cex :
    rootListable badSubdirFs = true ∧
    scan badSubdirSc = Except.error () := by
  constructor
  · rfl
  · rfl

/-- C3 counterexample: the accepted file Foo.TS produces a Node whose
type field is ".TS", not the lower-cased ".ts" the claim promises
(only the allow-list comparison lower-cases the extension). -/
theorem c3_type_case_cex :
    isCodeFile "Foo.TS" = true ∧
    (scanGraph upperExtSc).nodes.map (fun n => n.type) = [".TS"] ∧
    ¬ (".TS" = ".ts") := by
  decide

/-- C1 (amended): the Python extraction regex captures only single
undotted module names (so the captured string never contains a dot and
dotted statements like `from pkg.sub import y` contribute nothing);
for every captured module name m of a .py file, a Link from
the importing file to `m.py` is emitted exactly when that file
exists under the scan root. -/
theorem c1_python_import_amended (sc : Scanner) (d : List String)
    (name rid content m : String)
    (hext : lowerStr (extname name) = ".py") (hm : m ∈ pyExtract content) :
    ('.' ∉ m.data) ∧
    (Link.mk rid (m ++ ".py") ∈ parseDeps sc content d name rid ↔
      sc.fileExists (m ++ ".py") = true) := by
  obtain ⟨hne, hall⟩ := pyExtract_word hm
  have hnodot : '.' ∉ m.data := by
    intro hdot
    have hw := (List.all_eq_true.mp hall) '.' hdot
    simp [isWordChar] at hw
  refine ⟨hnodot, ?_⟩
  have hpd : parseDeps sc content d name rid =
      (importPathsOf (lowerStr (extname name)) content).foldl
        (fun acc ip => acc ++ resolveImport sc d (lowerStr (extname name)) rid ip) [] := rfl
  rw [hpd, hext, show importPathsOf ".py" content = pyExtract content from rfl,
    mem_foldl_append]
  simp only [List.not_mem_nil, false_or]
  constructor
  · rintro ⟨ip, hip, hmem⟩
    obtain ⟨hne', hall'⟩ := pyExtract_word hip
    rw [resolveImport_py sc d rid hne' hall'] at hmem
    by_cases hex : sc.fileExists (ip ++ ".py") = true
    · simp only [hex, if_true, List.mem_singleton, Link.mk.injEq] at hmem
      have heq : m = ip := by
        have hd := congrArg String.data hmem.2
        rw [String.data_append, String.data_append] at hd
        exact string_data_inj (List.append_cancel_right hd)
      rw [heq]
      exact hex
    · rw [Bool.not_eq_true] at hex
      simp [hex] at hmem
  · intro hex
    refine ⟨m, hm, ?_⟩
    rw [resolveImport_py sc d rid hne hall]
    simp [hex]

theorem c1_python_import_amended_wit :
    ('.' ∉ "util".data) ∧
    Link.mk "main.py" "util.py" ∈
      parseDeps pySimpleSc "import util\n" [] "main.py" "main.py" := by
  have h := c1_python_import_amended pySimpleSc [] "main.py" "main.py"
    "import util\n" "util" (by decide) (by decide)
  exact ⟨h.1, h.2.mpr (by decide)⟩

/-- C6: an import string that does not begin with a relative-path
marker produces no Link from a non-Python file: if every extracted
raw import string of the file is non-relative, parseDeps emits
nothing (no fallback probing, no error). -/
theorem c6_external_import_no_link (sc : Scanner) (d : List String)
    (name rid content : String)
    (hext : ¬ lowerStr (extname name) = ".py")
    (hrel : ∀ ip ∈ importPathsOf (lowerStr (extname name)) content,
      leadsWith "." ip = false) :
    parseDeps sc content d name rid = [] := by
  have hpd : parseDeps sc content d name rid =
      (importPathsOf (lowerStr (extname name)) content).foldl
        (fun acc ip => acc ++ resolveImport sc d (lowerStr (extname name)) rid ip) [] := rfl
  rw [hpd]
  apply foldl_append_nil
  intro ip hip
  have h1 := hrel ip hip
  have h2 : (lowerStr (extname name) == ".py") = false := by
    rw [beq_eq_false_iff_ne]
    exact hext
  cases hemp : ip == "" with
  | true => simp [resolveImport, hemp]
  | false => simp [resolveImport, hemp, h1, h2]

theorem c6_external_import_no_link_wit :
    parseDeps emptySc "import x from 'react'\n" [] "a.ts" "a.ts" = [] :=
  c6_external_import_no_link emptySc [] "a.ts" "a.ts"
    "import x from 'react'\n" (by decide) (by decide)

theorem mem_ite_nil {α : Type} {l : α} {b : Bool} {xs : List α}
    (h : l ∈ (if b = true then xs else ([] : List α))) : b = true ∧ l ∈ xs := by
  cases hb : b
  · rw [hb] at h
    simp at h
  · rw [hb] at h
    simp at h
    exact ⟨rfl, h⟩

/- Every link parseDeps emits has the importing file as source and a
   target that does not begin with a parent-directory marker. -/
theorem parseDeps_src_tgt (sc : Scanner) (content : String) (d : List String)
    (name rid : String) :
    ∀ l ∈ parseDeps sc content d name rid,
      l.source = rid ∧ leadsWith ".." l.target = false := by
  intro l hl
  have hpd : parseDeps sc content d name rid =
      (importPathsOf (lowerStr (extname name)) content).foldl
        (fun acc ip => acc ++ resolveImport sc d (lowerStr (extname name)) rid ip) [] := rfl
  rw [hpd, mem_foldl_append] at hl
  simp only [List.not_mem_nil, false_or] at hl
  obtain ⟨ip, hip, hmem⟩ := hl
  by_cases hpy : lowerStr (extname name) = ".py"
  · rw [hpy] at hmem hip
    rw [show importPathsOf ".py" content = pyExtract content from rfl] at hip
    obtain ⟨hne, hall⟩ := pyExtract_word hip
    rw [resolveImport_py sc d rid hne hall] at hmem
    by_cases hex : sc.fileExists (ip ++ ".py") = true
    · simp only [hex, if_true, List.mem_singleton] at hmem
      subst hmem
      refine ⟨rfl, ?_⟩
      obtain ⟨c, rest, hcr⟩ : ∃ c rest, ip.data = c :: rest := by
        cases hmd : ip.data with
        | nil => exact absurd hmd hne
        | cons c rest => exact ⟨c, rest, rfl⟩
      have hc : isWordChar c = true := by
        rw [hcr] at hall
        simp at hall
        exact hall.1
      have hd2 : (ip ++ ".py").data = c :: (rest ++ ".py".data) := by
        rw [String.data_append, hcr]
        rfl
      exact (leadsWith_head_ne hd2 (word_not_dot hc)).2
    · rw [Bool.not_eq_true] at hex
      simp [hex] at hmem
  · have h2 : (lowerStr (extname name) == ".py") = false := by
      rw [beq_eq_false_iff_ne]
      exact hpy
    by_cases hemp : (ip == "") = true
    · simp [resolveImport, hemp] at hmem
    · rw [Bool.not_eq_true] at hemp
      by_cases hrel : leadsWith "." ip = true
      · simp only [resolveImport, hemp, Bool.false_eq_true, if_false, hrel,
          if_true] at hmem
        obtain ⟨hguard, hmem2⟩ := mem_ite_nil hmem
        rw [List.mem_singleton] at hmem2
        subst hmem2
        rw [Bool.and_eq_true] at hguard
        refine ⟨rfl, ?_⟩
        have hg := hguard.1
        rwa [Bool.not_eq_true'] at hg
      · rw [Bool.not_eq_true] at hrel
        simp [resolveImport, hemp, hrel, h2] at hmem

/- The traversal invariant: every emitted link's source is the id of a
   node emitted by the same (partial) walk, and no emitted link's
   target begins with a parent-directory marker. -/
mutual
theorem scanTree_links (sc : Scanner) (d : List String) (name : String) :
    ∀ (t : FSTree), ∀ l ∈ (scanTree sc d name t).1.2,
      l.source ∈ (scanTree sc d name t).1.1.map Node.id ∧
      leadsWith ".." l.target = false
  | FSTree.file ok content => by
    intro l hl
    by_cases hcf : isCodeFile name = true
    · simp only [scanTree, hcf, if_true] at hl ⊢
      cases hok : ok with
      | false => simp [processFile, hok] at hl
      | true =>
        simp only [processFile, hok, if_true] at hl ⊢
        have h := parseDeps_src_tgt sc content d name (joinSegs (d ++ [name])) l hl
        refine ⟨?_, h.2⟩
        simp [h.1]
    · rw [Bool.not_eq_true] at hcf
      simp [scanTree, hcf] at hl
  | FSTree.dir b es => by
    intro l hl
    cases b with
    | false => simp [scanTree] at hl
    | true =>
      simp only [scanTree, if_true] at hl ⊢
      exact scanEntries_links sc (d ++ [name]) es l hl

theorem scanEntries_links (sc : Scanner) (d : List String) :
    ∀ (es : FSList), ∀ l ∈ (scanEntries sc d es).1.2,
      l.source ∈ (scanEntries sc d es).1.1.map Node.id ∧
      leadsWith ".." l.target = false
  | FSList.nil => by intro l hl; simp [scanEntries] at hl
  | FSList.cons name sub rest => by
    intro l hl
    by_cases hskip : skipEntry sc d name = true
    · simp only [scanEntries, hskip, if_true] at hl ⊢
      exact scanEntries_links sc d rest l hl
    · rw [Bool.not_eq_true] at hskip
      simp only [scanEntries, hskip, Bool.false_eq_true, if_false] at hl ⊢
      cases h1 : (scanTree sc d name sub).2 with
      | true =>
        simp only [h1, if_true] at hl ⊢
        rcases List.mem_append.mp hl with h | h
        · have hrec := scanTree_links sc d name sub l h
          exact ⟨by rw [List.map_append]; exact List.mem_append_left _ hrec.1, hrec.2⟩
        · have hrec := scanEntries_links sc d rest l h
          exact ⟨by rw [List.map_append]; exact List.mem_append_right _ hrec.1, hrec.2⟩
      | false =>
        simp only [h1, Bool.false_eq_true, if_false] at hl ⊢
        exact scanTree_links sc d name sub l hl
end

/- adlT/adlL: when every directory is listable, the walk succeeds. -/
mutual
theorem scanTree_adl (sc : Scanner) (d : List String) (name : String) :
    ∀ (t : FSTree), adlT t = true → (scanTree sc d name t).2 = true
  | FSTree.file ok content => by intro _; rfl
  | FSTree.dir b es => by
    intro h
    simp only [adlT, Bool.and_eq_true] at h
    simp only [scanTree, h.1, if_true]
    exact scanEntries_adl sc (d ++ [name]) es h.2

theorem scanEntries_adl (sc : Scanner) (d : List String) :
    ∀ (es : FSList), adlL es = true → (scanEntries sc d es).2 = true
  | FSList.nil => by intro _; rfl
  | FSList.cons name sub rest => by
    intro h
    simp only [adlL, Bool.and_eq_true] at h
    by_cases hskip : skipEntry sc d name = true
    · simp only [scanEntries, hskip, if_true]
      exact scanEntries_adl sc d rest h.2
    · rw [Bool.not_eq_true] at hskip
      have h1 := scanTree_adl sc d name sub h.1
      simp only [scanEntries, hskip, Bool.false_eq_true, if_false, h1, if_true]
      exact scanEntries_adl sc d rest h.2
end

/- Success analysis of scan(). -/
theorem scan_ok_elim {sc : Scanner} {g : GraphData} (h : scan sc = Except.ok g) :
    ∃ es, sc.fs = FSTree.dir true es ∧ (scanEntries sc [] es).2 = true ∧
      g.nodes = (scanEntries sc [] es).1.1 ∧ g.links = (scanEntries sc [] es).1.2 := by
  have h' : scan sc = (if (scanDirectory sc).2 then
      Except.ok ⟨(scanDirectory sc).1.1, (scanDirectory sc).1.2⟩
    else Except.error ()) := rfl
  rw [h'] at h
  cases hfs : sc.fs with
  | file b c =>
    have hd : scanDirectory sc = (([], []), false) := by unfold scanDirectory; rw [hfs]
    rw [hd] at h
    simp at h
  | dir b es =>
    cases b with
    | false =>
      have hd : scanDirectory sc = (([], []), false) := by unfold scanDirectory; rw [hfs]
      rw [hd] at h
      simp at h
    | true =>
      have hd : scanDirectory sc = scanEntries sc [] es := by unfold scanDirectory; rw [hfs]
      rw [hd] at h
      cases h2 : (scanEntries sc [] es).2 with
      | false => rw [h2] at h; simp at h
      | true =>
        rw [h2] at h
        simp only [if_true] at h
        have h3 : (⟨(scanEntries sc [] es).1.1, (scanEntries sc [] es).1.2⟩ : GraphData) = g := by
          injection h
        exact ⟨es, rfl, h2, by rw [← h3], by rw [← h3]⟩

/- The nodes of a successful walk are exactly the accepted files. -/
mutual
theorem scanTree_nodes (sc : Scanner) (d : List String) (name : String) :
    ∀ (t : FSTree), (scanTree sc d name t).2 = true →
      (scanTree sc d name t).1.1 = (accTreeS sc d name t).map mkNodeF
  | FSTree.file ok content => by
    intro _
    by_cases hcf : isCodeFile name = true
    · cases hok : ok with
      | true => simp [scanTree, accTreeS, hcf, hok, processFile, mkNodeF]
      | false => simp [scanTree, accTreeS, hcf, hok, processFile]
    · rw [Bool.not_eq_true] at hcf
      simp [scanTree, accTreeS, hcf, processFile]
  | FSTree.dir b es => by
    intro h2
    cases b with
    | false => simp [scanTree] at h2
    | true =>
      simp only [scanTree, if_true] at h2 ⊢
      simp only [accTreeS]
      exact scanEntries_nodes sc (d ++ [name]) es h2

theorem scanEntries_nodes (sc : Scanner) (d : List String) :
    ∀ (es : FSList), (scanEntries sc d es).2 = true →
      (scanEntries sc d es).1.1 = (accEntriesS sc d es).map mkNodeF
  | FSList.nil => by intro _; rfl
  | FSList.cons name sub rest => by
    intro h2
    by_cases hskip : skipEntry sc d name = true
    · simp only [scanEntries, accEntriesS, hskip, if_true] at h2 ⊢
      simpa using scanEntries_nodes sc d rest h2
    · rw [Bool.not_eq_true] at hskip
      cases h1 : (scanTree sc d name sub).2 with
      | false =>
        simp only [scanEntries, hskip, Bool.false_eq_true, if_false, h1] at h2
      | true =>
        simp only [scanEntries, accEntriesS, hskip, Bool.false_eq_true, if_false,
          h1, if_true] at h2 ⊢
        rw [List.map_append, scanTree_nodes sc d name sub h1,
          scanEntries_nodes sc d rest h2]
end

/-- C2 (amended): scan() fails when the root is not a directory (or is
unlistable), and succeeds whenever every directory in the tree is
listable — per-file stat/read failures and arbitrary file contents are
never fatal. -/
theorem c2_scan_error_model_amended (sc : Scanner) :
    (∀ b c, sc.fs = FSTree.file b c → scan sc = Except.error ()) ∧
    (adlT sc.fs = true → rootIsDir sc.fs = true → scanOk sc = true) := by
  constructor
  · intro b c hf
    have h' : scan sc = (if (scanDirectory sc).2 then
        Except.ok ⟨(scanDirectory sc).1.1, (scanDirectory sc).1.2⟩
      else Except.error ()) := rfl
    have hd : scanDirectory sc = (([], []), false) := by unfold scanDirectory; rw [hf]
    rw [h', hd]
    rfl
  · intro hadl hdir
    cases hfs : sc.fs with
    | file b c => rw [hfs] at hdir; simp [rootIsDir] at hdir
    | dir b es =>
      rw [hfs] at hadl
      simp only [adlT, Bool.and_eq_true] at hadl
      have hok := scanEntries_adl sc [] es hadl.2
      have h' : scan sc = (if (scanDirectory sc).2 then
          Except.ok ⟨(scanDirectory sc).1.1, (scanDirectory sc).1.2⟩
        else Except.error ()) := rfl
      have hd : scanDirectory sc = scanEntries sc [] es := by
        unfold scanDirectory; rw [hfs, hadl.1]
      unfold scanOk
      rw [h', hd, hok]
      rfl

theorem c2_scan_error_model_amended_wit :
    scan rootFileSc = Except.error () ∧ scanOk isolationSc = true :=
  ⟨(c2_scan_error_model_amended rootFileSc).1 true "not a directory" rfl,
   (c2_scan_error_model_amended isolationSc).2 (by decide) (by decide)⟩

/-- C3 (amended): every Node's type field equals path.extname of its
file name verbatim (case preserved, not lower-cased). -/
theorem c3_node_type_amended (sc : Scanner) (g : GraphData)
    (h : scan sc = Except.ok g) :
    ∀ n ∈ g.nodes, n.type = extname n.name := by
  obtain ⟨es, _, hok, hnodes, _⟩ := scan_ok_elim h
  intro n hn
  rw [hnodes, scanEntries_nodes sc [] es hok] at hn
  obtain ⟨f, _, hf⟩ := List.mem_map.mp hn
  rw [← hf]
  rfl

theorem c3_node_type_amended_wit :
    (scanGraph upperExtSc).nodes.all (fun n => n.type == extname n.name) = true := by
  rw [List.all_eq_true]
  intro n hn
  rw [beq_iff_eq]
  exact c3_node_type_amended upperExtSc (scanGraph upperExtSc) rfl n hn

/-- C10: in every graph scan() returns, each Link's source is the id of
a Node of the same graph (the importing file's Node is pushed before
its dependencies are parsed); no such guarantee holds for targets — in
the concrete tree below, a.ts links to the existing extensionless file
b, which is excluded from the node set. -/
theorem c10_link_source_closed :
    (∀ (sc : Scanner) (g : GraphData), scan sc = Except.ok g →
      ∀ l ∈ g.links, l.source ∈ g.nodes.map Node.id) ∧
    ((scanGraph extensionlessSc).links = [⟨"a.ts", "b"⟩] ∧
      extensionlessSc.fileExists "b" = true ∧
      ¬ ("b" ∈ (scanGraph extensionlessSc).nodes.map Node.id)) := by
  constructor
  · intro sc g h l hl
    obtain ⟨es, _, _, hnodes, hlinks⟩ := scan_ok_elim h
    rw [hlinks] at hl
    rw [hnodes]
    exact (scanEntries_links sc [] es l hl).1
  · decide

theorem c10_link_source_closed_wit :
    "a.ts" ∈ (scanGraph extensionlessSc).nodes.map Node.id :=
  c10_link_source_closed.1 extensionlessSc (scanGraph extensionlessSc) rfl
    ⟨"a.ts", "b"⟩ (by decide)

/-- C7: every emitted Link's target is a scan-root-relative path not
beginning with a parent-directory marker, and any relative import
whose normalization pops above the scan root (positive up-count)
resolves to nothing — no edge is emitted for it. -/
theorem c7_no_parent_escape (sc : Scanner) (g : GraphData)
    (h : scan sc = Except.ok g) :
    (∀ l ∈ g.links, leadsWith ".." l.target = false) ∧
    (∀ (d : List String) (ext rid ip : String),
      leadsWith "." ip = true →
      0 < (normSegs d 0 (splitSlash ip)).1 →
      resolveImport sc d ext rid ip = []) := by
  constructor
  · intro l hl
    obtain ⟨es, _, _, _, hlinks⟩ := scan_ok_elim h
    rw [hlinks] at hl
    exact (scanEntries_links sc [] es l hl).2
  · intro d ext rid ip hrel hups
    have hemp := leadsWith_dot_ne_empty hrel
    have hbase : leadsWith ".." (relOfParts (normSegs d 0 (splitSlash ip))) = true := by
      cases hn : (normSegs d 0 (splitSlash ip)).1 with
      | zero => rw [hn] at hups; exact absurd hups (by simp)
      | succ k =>
        unfold relOfParts
        rw [hn, List.replicate_succ, List.cons_append]
        exact leadsWith_dotdot_join _
    simp only [resolveImport, hemp, Bool.false_eq_true, if_false, hrel, if_true]
    have htarget : leadsWith ".."
        (if sc.fileExists (relOfParts (normSegs d 0 (splitSlash ip))) = true then
          relOfParts (normSegs d 0 (splitSlash ip))
        else probeFirst sc (relOfParts (normSegs d 0 (splitSlash ip)))) = true := by
      split
      · exact hbase
      · unfold probeFirst
        split
        · exact leadsWith_append _ _ _ hbase
        · exact hbase
    simp [htarget]

theorem c7_no_parent_escape_wit :
    (scanGraph exactMatchSc).links.all (fun l => !(leadsWith ".." l.target)) = true ∧
    resolveImport exactMatchSc [] ".ts" "a.ts" "../x" = [] := by
  have h := c7_no_parent_escape exactMatchSc (scanGraph exactMatchSc) rfl
  constructor
  · rw [List.all_eq_true]
    intro l hl
    have hx := h.1 l hl
    simp [hx]
  · exact h.2 [] ".ts" "a.ts" "../x" (by decide) (by decide)

/- Injectivity of slash-joining on lists of real entry names. -/

theorem sep_append_inj (sep : Char) :
    ∀ (x y u v : List Char), sep ∉ x → sep ∉ y →
      x ++ sep :: u = y ++ sep :: v → x = y ∧ u = v := by
  intro x
  induction x with
  | nil =>
    intro y u v _ hy h
    cases y with
    | nil =>
      simp only [List.nil_append, List.cons.injEq] at h
      exact ⟨rfl, h.2⟩
    | cons b ys =>
      simp only [List.nil_append, List.cons_append, List.cons.injEq] at h
      exact absurd (h.1 ▸ List.mem_cons_self b ys) hy
  | cons a xs ih =>
    intro y u v hx hy h
    cases y with
    | nil =>
      simp only [List.cons_append, List.nil_append, List.cons.injEq] at h
      exact absurd (h.1.symm ▸ List.mem_cons_self a xs) hx
    | cons b ys =>
      simp only [List.cons_append, List.cons.injEq] at h
      obtain ⟨hab, h2⟩ := h
      have hr := ih ys u v (fun hm => hx (List.mem_cons_of_mem a hm))
        (fun hm => hy (List.mem_cons_of_mem b hm)) h2
      exact ⟨by rw [hab, hr.1], hr.2⟩

theorem joinChars_inj (sep : Char) :
    ∀ (a b : List (List Char)),
      (∀ x ∈ a, x ≠ [] ∧ sep ∉ x) → (∀ x ∈ b, x ≠ [] ∧ sep ∉ x) →
      joinChars sep a = joinChars sep b → a = b := by
  intro a
  induction a with
  | nil =>
    intro b _ hb h
    cases b with
    | nil => rfl
    | cons y ys =>
      cases ys with
      | nil => exact absurd h.symm (hb y (by simp)).1
      | cons z zs =>
        exfalso
        have hlen := congrArg List.length h
        simp [joinChars] at hlen
        omega
  | cons x xs ih =>
    intro b ha hb h
    cases b with
    | nil =>
      cases xs with
      | nil => exact absurd h (ha x (by simp)).1
      | cons x2 xs2 =>
        exfalso
        have hlen := congrArg List.length h
        simp [joinChars] at hlen
    | cons y ys =>
      cases xs with
      | nil =>
        cases ys with
        | nil =>
          have hxy : x = y := h
          rw [hxy]
        | cons z zs =>
          exfalso
          apply (ha x (by simp)).2
          have hx : x = y ++ sep :: joinChars sep (z :: zs) := h
          rw [hx]
          exact List.mem_append_right _ (List.mem_cons_self _ _)
      | cons x2 xs2 =>
        cases ys with
        | nil =>
          exfalso
          apply (hb y (by simp)).2
          have hy : x ++ sep :: joinChars sep (x2 :: xs2) = y := h
          rw [← hy]
          exact List.mem_append_right _ (List.mem_cons_self _ _)
        | cons y2 ys2 =>
          have h' : x ++ sep :: joinChars sep (x2 :: xs2) =
              y ++ sep :: joinChars sep (y2 :: ys2) := h
          obtain ⟨h1, h2⟩ := sep_append_inj sep x y _ _
            (ha x (by simp)).2 (hb y (by simp)).2 h'
          have hr := ih (y2 :: ys2)
            (fun t ht => ha t (List.mem_cons_of_mem x ht))
            (fun t ht => hb t (List.mem_cons_of_mem y ht)) h2
          rw [h1, hr]

theorem string_eq_empty_of_data {s : String} (h : s.data = []) : s = "" :=
  string_data_inj h

theorem joinSegs_inj {a b : List String}
    (ha : ∀ s ∈ a, goodName s = true) (hb : ∀ s ∈ b, goodName s = true)
    (h : joinSegs a = joinSegs b) : a = b := by
  unfold joinSegs at h
  have hd : joinChars '/' (a.map String.data) = joinChars '/' (b.map String.data) := by
    injection h
  have goodc : ∀ (l : List String), (∀ s ∈ l, goodName s = true) →
      ∀ x ∈ l.map String.data, x ≠ [] ∧ '/' ∉ x := by
    intro l hl x hx
    obtain ⟨s, hs, rfl⟩ := List.mem_map.mp hx
    have hg := hl s hs
    unfold goodName at hg
    rw [Bool.and_eq_true] at hg
    constructor
    · intro hnil
      rw [string_eq_empty_of_data hnil] at hg
      simp at hg
    · intro hmem
      have hz := (List.all_eq_true.mp hg.2) '/' hmem
      simp at hz
  have hmaps := joinChars_inj '/' _ _ (goodc a ha) (goodc b hb) hd
  exact List.map_injective_iff.mpr string_data_inj hmaps

/- Shapes of accepted-file paths: every accepted file under a
   well-formed subtree sits strictly below its directory prefix, with
   real names throughout. -/
mutual
theorem accTreeS_shape (sc : Scanner) (d : List String) (name : String) :
    ∀ (t : FSTree), wfT t = true → ∀ f ∈ accTreeS sc d name t,
      ∃ suf, f.1 = d ++ name :: suf ∧ (∀ s ∈ suf, goodName s = true)
  | FSTree.file ok content => by
    intro _ f hf
    by_cases hca : (isCodeFile name && ok) = true
    · simp only [accTreeS, hca, if_true, List.mem_singleton] at hf
      subst hf
      exact ⟨[], rfl, by simp⟩
    · rw [Bool.not_eq_true] at hca
      simp [accTreeS, hca] at hf
  | FSTree.dir b es => by
    intro hwf f hf
    simp only [accTreeS] at hf
    have hwf' : wfL es = true := by simpa [wfT] using hwf
    obtain ⟨nm, suf, heq, hnm, hsuf, _⟩ :=
      accEntriesS_shape sc (d ++ [name]) es hwf' f hf
    refine ⟨nm :: suf, ?_, ?_⟩
    · rw [heq, List.append_assoc]
      rfl
    · intro s hs
      rcases List.mem_cons.mp hs with hh | ht
      · rw [hh]; exact hnm
      · exact hsuf s ht

theorem accEntriesS_shape (sc : Scanner) (d : List String) :
    ∀ (es : FSList), wfL es = true → ∀ f ∈ accEntriesS sc d es,
      ∃ nm suf, f.1 = d ++ nm :: suf ∧ goodName nm = true ∧
        (∀ s ∈ suf, goodName s = true) ∧ hasName es nm = true
  | FSList.nil => by intro _ f hf; simp [accEntriesS] at hf
  | FSList.cons name sub rest => by
    intro hwf f hf
    simp only [wfL, Bool.and_eq_true] at hwf
    obtain ⟨⟨⟨h1, h2⟩, h3⟩, h4⟩ := hwf
    simp only [accEntriesS] at hf
    rcases List.mem_append.mp hf with h | h
    · by_cases hskip : skipEntry sc d name = true
      · simp [hskip] at h
      · rw [Bool.not_eq_true] at hskip
        rw [hskip] at h
        simp only [Bool.false_eq_true, if_false] at h
        obtain ⟨suf, heq, hsuf⟩ := accTreeS_shape sc d name sub h3 f h
        exact ⟨name, suf, heq, h1, hsuf, by simp [hasName]⟩
    · obtain ⟨nm, suf, heq, hnm, hsuf, hhas⟩ :=
        accEntriesS_shape sc d rest h4 f h
      exact ⟨nm, suf, heq, hnm, hsuf, by simp [hasName, hhas]⟩
end

/- Distinctness of accepted-file paths under well-formedness. -/
mutual
theorem accTreeS_nodup (sc : Scanner) (d : List String) (name : String) :
    ∀ (t : FSTree), wfT t = true →
      ((accTreeS sc d name t).map (fun f => f.1)).Nodup
  | FSTree.file ok content => by
    intro _
    by_cases hca : (isCodeFile name && ok) = true
    · simp [accTreeS, hca]
    · rw [Bool.not_eq_true] at hca
      simp [accTreeS, hca]
  | FSTree.dir b es => by
    intro hwf
    simp only [accTreeS]
    exact accEntriesS_nodup sc (d ++ [name]) es (by simpa [wfT] using hwf)

theorem accEntriesS_nodup (sc : Scanner) (d : List String) :
    ∀ (es : FSList), wfL es = true →
      ((accEntriesS sc d es).map (fun f => f.1)).Nodup
  | FSList.nil => by intro _; simp [accEntriesS]
  | FSList.cons name sub rest => by
    intro hwf
    simp only [wfL, Bool.and_eq_true] at hwf
    obtain ⟨⟨⟨h1, h2⟩, h3⟩, h4⟩ := hwf
    simp only [accEntriesS, List.map_append]
    apply List.Nodup.append
    · by_cases hskip : skipEntry sc d name = true
      · simp [hskip]
      · rw [Bool.not_eq_true] at hskip
        simp only [hskip, Bool.false_eq_true, if_false]
        exact accTreeS_nodup sc d name sub h3
    · exact accEntriesS_nodup sc d rest h4
    · intro p hp1 hp2
      by_cases hskip : skipEntry sc d name = true
      · simp [hskip] at hp1
      · rw [Bool.not_eq_true] at hskip
        rw [hskip] at hp1
        simp only [Bool.false_eq_true, if_false] at hp1
        obtain ⟨f, hf, hfp⟩ := List.mem_map.mp hp1
        obtain ⟨suf, heq, _⟩ := accTreeS_shape sc d name sub h3 f hf
        obtain ⟨g2, hg2, hgp⟩ := List.mem_map.mp hp2
        obtain ⟨nm, suf2, heq2, _, _, hhas⟩ := accEntriesS_shape sc d rest h4 g2 hg2
        have hpe : d ++ name :: suf = d ++ nm :: suf2 := by
          rw [← heq, ← heq2, hfp, hgp]
        have hcons := List.append_cancel_left hpe
        have hnm_eq : name = nm := (List.cons.injEq _ _ _ _).mp hcons |>.1
        rw [← hnm_eq] at hhas
        rw [hhas] at h2
        simp at h2
end

/- All accepted files carry names that pass the extension allow-list. -/
mutual
theorem accTreeS_code (sc : Scanner) (d : List String) (name : String) :
    ∀ (t : FSTree), ∀ f ∈ accTreeS sc d name t, isCodeFile f.2.1 = true
  | FSTree.file ok content => by
    intro f hf
    by_cases hca : (isCodeFile name && ok) = true
    · simp only [accTreeS, hca, if_true, List.mem_singleton] at hf
      subst hf
      exact (Bool.and_eq_true _ _).mp hca |>.1
    · rw [Bool.not_eq_true] at hca
      simp [accTreeS, hca] at hf
  | FSTree.dir b es => by
    intro f hf
    simp only [accTreeS] at hf
    exact accEntriesS_code sc (d ++ [name]) es f hf

theorem accEntriesS_code (sc : Scanner) (d : List String) :
    ∀ (es : FSList), ∀ f ∈ accEntriesS sc d es, isCodeFile f.2.1 = true
  | FSList.nil => by intro f hf; simp [accEntriesS] at hf
  | FSList.cons name sub rest => by
    intro f hf
    simp only [accEntriesS] at hf
    rcases List.mem_append.mp hf with h | h
    · by_cases hskip : skipEntry sc d name = true
      · simp [hskip] at h
      · rw [Bool.not_eq_true] at hskip
        rw [hskip] at h
        simp only [Bool.false_eq_true, if_false] at h
        exact accTreeS_code sc d name sub f h
    · exact accEntriesS_code sc d rest f h
end

/-- C5: every Node of a scan has a file name whose (case-insensitive)
extension is in the allow-list, the node list is exactly one Node per
accepted (reachable, allow-listed, readable) file in traversal order,
and on a well-formed tree the node ids are pairwise distinct. -/
theorem c5_extension_filter (sc : Scanner) (g : GraphData)
    (h : scan sc = Except.ok g) :
    (∀ n ∈ g.nodes, isCodeFile n.name = true) ∧
    g.nodes = (acceptedFilesRoot sc).map mkNodeF ∧
    (wfT sc.fs = true → (g.nodes.map Node.id).Nodup) := by
  obtain ⟨es, hfs, hok, hnodes, _⟩ := scan_ok_elim h
  have hacc : acceptedFilesRoot sc = accEntriesS sc [] es := by
    unfold acceptedFilesRoot
    rw [hfs]
  have hn2 : g.nodes = (accEntriesS sc [] es).map mkNodeF := by
    rw [hnodes]
    exact scanEntries_nodes sc [] es hok
  refine ⟨?_, by rw [hn2, hacc], ?_⟩
  · intro n hn
    rw [hn2] at hn
    obtain ⟨f, hf, hfn⟩ := List.mem_map.mp hn
    rw [← hfn]
    exact accEntriesS_code sc [] es f hf
  · intro hwf
    rw [hfs] at hwf
    have hwl : wfL es = true := by simpa [wfT] using hwf
    rw [hn2]
    have hrw : ((accEntriesS sc [] es).map mkNodeF).map Node.id =
        ((accEntriesS sc [] es).map (fun f => f.1)).map joinSegs := by
      rw [List.map_map, List.map_map]
      rfl
    rw [hrw]
    apply List.Nodup.map_on
    · intro p hp q hq hpq
      have hgoodp : ∀ s ∈ p, goodName s = true := by
        obtain ⟨f, hf, hfp⟩ := List.mem_map.mp hp
        obtain ⟨nm, suf, heq, hnm, hsuf, _⟩ := accEntriesS_shape sc [] es hwl f hf
        rw [← hfp, heq]
        intro s hs
        rcases List.mem_cons.mp hs with hh | ht
        · rw [hh]; exact hnm
        · exact hsuf s ht
      have hgoodq : ∀ s ∈ q, goodName s = true := by
        obtain ⟨f, hf, hfp⟩ := List.mem_map.mp hq
        obtain ⟨nm, suf, heq, hnm, hsuf, _⟩ := accEntriesS_shape sc [] es hwl f hf
        rw [← hfp, heq]
        intro s hs
        rcases List.mem_cons.mp hs with hh | ht
        · rw [hh]; exact hnm
        · exact hsuf s ht
      exact joinSegs_inj hgoodp hgoodq hpq
    · exact accEntriesS_nodup sc [] es hwl

theorem c5_extension_filter_wit :
    (scanGraph isolationSc).nodes.all (fun n => isCodeFile n.name) = true ∧
    (scanGraph isolationSc).nodes = (acceptedFilesRoot isolationSc).map mkNodeF ∧
    ((scanGraph isolationSc).nodes.map Node.id).Nodup := by
  have h := c5_extension_filter isolationSc (scanGraph isolationSc) rfl
  refine ⟨?_, h.2.1, h.2.2 (by decide)⟩
  rw [List.all_eq_true]
  intro n hn
  exact h.1 n hn

/- Lookup facts relating findL, hasName and the accepted files. -/

theorem findL_hasName :
    ∀ (es : FSList) (name : String) (sub : FSTree),
      findL es name = some sub → hasName es name = true
  | FSList.nil => by intro name sub h; simp [findL] at h
  | FSList.cons nm sub' rest => by
    intro name sub h
    simp only [findL] at h
    by_cases hnm : (nm == name) = true
    · simp [hasName, hnm]
    · rw [Bool.not_eq_true] at hnm
      rw [hnm] at h
      simp only [Bool.false_eq_true, if_false] at h
      simp only [hasName, hnm, Bool.false_or]
      exact findL_hasName rest name sub h

theorem findL_good :
    ∀ (es : FSList) (name : String) (sub : FSTree),
      wfL es = true → findL es name = some sub →
      goodName name = true ∧ wfT sub = true
  | FSList.nil => by intro name sub _ h; simp [findL] at h
  | FSList.cons nm sub' rest => by
    intro name sub hwf h
    simp only [wfL, Bool.and_eq_true] at hwf
    obtain ⟨⟨⟨h1, _⟩, h3⟩, h4⟩ := hwf
    simp only [findL] at h
    by_cases hnm : (nm == name) = true
    · simp only [hnm, if_true, Option.some.injEq] at h
      subst h
      exact ⟨eq_of_beq hnm ▸ h1, h3⟩
    · rw [Bool.not_eq_true] at hnm
      rw [hnm] at h
      simp only [Bool.false_eq_true, if_false] at h
      exact findL_good rest name sub h4 h

theorem findL_acc_sub (sc : Scanner) (d : List String) (name : String) :
    ∀ (es : FSList) (sub : FSTree), findL es name = some sub →
      skipEntry sc d name = false →
      ∀ x ∈ accTreeS sc d name sub, x ∈ accEntriesS sc d es
  | FSList.nil => by intro sub h _ x hx; simp [findL] at h
  | FSList.cons nm sub' rest => by
    intro sub h hskip x hx
    simp only [findL] at h
    by_cases hnm : (nm == name) = true
    · simp only [hnm, if_true, Option.some.injEq] at h
      subst h
      have he : nm = name := eq_of_beq hnm
      subst he
      simp only [accEntriesS, hskip, Bool.false_eq_true, if_false]
      exact List.mem_append_left _ hx
    · rw [Bool.not_eq_true] at hnm
      rw [hnm] at h
      simp only [Bool.false_eq_true, if_false] at h
      simp only [accEntriesS]
      exact List.mem_append_right _ (findL_acc_sub sc d name rest sub h hskip x hx)

theorem mem_accEntriesS_cases (sc : Scanner) (d : List String) :
    ∀ (es : FSList) (f : List String × String × String), wfL es = true →
      f ∈ accEntriesS sc d es →
      ∃ nm sub, findL es nm = some sub ∧ skipEntry sc d nm = false ∧
        wfT sub = true ∧ f ∈ accTreeS sc d nm sub
  | FSList.nil => by intro f _ hf; simp [accEntriesS] at hf
  | FSList.cons name sub rest => by
    intro f hwf hf
    simp only [wfL, Bool.and_eq_true] at hwf
    obtain ⟨⟨⟨h1, h2⟩, h3⟩, h4⟩ := hwf
    simp only [accEntriesS] at hf
    rcases List.mem_append.mp hf with h | h
    · by_cases hskip : skipEntry sc d name = true
      · simp [hskip] at h
      · rw [Bool.not_eq_true] at hskip
        rw [hskip] at h
        simp only [Bool.false_eq_true, if_false] at h
        refine ⟨name, sub, ?_, hskip, h3, h⟩
        simp [findL]
    · obtain ⟨nm, sub2, hfind, hskip, hwfs, hmem⟩ :=
        mem_accEntriesS_cases sc d rest f h4 h
      refine ⟨nm, sub2, ?_, hskip, hwfs, hmem⟩
      have hhas : hasName rest nm = true := findL_hasName rest nm sub2 hfind
      have hne : (name == nm) = false := by
        cases hb : name == nm
        · rfl
        · exfalso
          rw [← eq_of_beq hb] at hhas
          rw [hhas] at h2
          simp at h2
      simp only [findL, hne, Bool.false_eq_true, if_false]
      exact hfind

/- Reachability of a file path vs membership of the accepted files. -/

theorem filePathAcc_mem (sc : Scanner) :
    ∀ (p d : List String) (es : FSList),
      filePathAcc sc d es p true = true →
      (d ++ p) ∈ (accEntriesS sc d es).map (fun f => f.1) := by
  intro p
  induction p with
  | nil => intro d es h; simp [filePathAcc] at h
  | cons name rest ih =>
    intro d es h
    cases rest with
    | nil =>
      simp only [filePathAcc] at h
      cases hfind : findL es name with
      | none => rw [hfind] at h; simp at h
      | some sub =>
        rw [hfind] at h
        cases sub with
        | dir b es2 => simp at h
        | file ok content =>
          simp only [Bool.and_eq_true, Bool.not_eq_true'] at h
          obtain ⟨⟨hnskip, hcode⟩, hok⟩ := h
          have hok' : ok = true := by simpa using hok
          subst hok'
          have hx : (d ++ [name], name, content) ∈
              accTreeS sc d name (FSTree.file true content) := by
            simp [accTreeS, hcode]
          have hm := findL_acc_sub sc d name es _ hfind hnskip _ hx
          exact List.mem_map.mpr ⟨_, hm, rfl⟩
    | cons n2 rest2 =>
      simp only [filePathAcc] at h
      cases hfind : findL es name with
      | none => rw [hfind] at h; simp at h
      | some sub =>
        rw [hfind] at h
        cases sub with
        | file ok content => simp at h
        | dir b es2 =>
          cases b with
          | false => simp at h
          | true =>
            simp only [Bool.and_eq_true, Bool.not_eq_true'] at h
            obtain ⟨hnskip, hrec⟩ := h
            have hmem := ih (d ++ [name]) es2 hrec
            obtain ⟨f, hf, hfp⟩ := List.mem_map.mp hmem
            have hx : f ∈ accTreeS sc d name (FSTree.dir true es2) := by
              simpa [accTreeS] using hf
            have hm := findL_acc_sub sc d name es _ hfind hnskip f hx
            refine List.mem_map.mpr ⟨f, hm, ?_⟩
            rw [hfp, List.append_assoc]
            rfl

theorem filePathAcc_good (sc : Scanner) :
    ∀ (p d : List String) (es : FSList) (w : Bool),
      wfL es = true → filePathAcc sc d es p w = true →
      ∀ s ∈ p, goodName s = true := by
  intro p
  induction p with
  | nil => intro d es w _ h; simp [filePathAcc] at h
  | cons name rest ih =>
    intro d es w hwf h s hs
    cases rest with
    | nil =>
      simp only [filePathAcc] at h
      cases hfind : findL es name with
      | none => rw [hfind] at h; simp at h
      | some sub =>
        rw [hfind] at h
        cases sub with
        | dir b es2 => simp at h
        | file ok content =>
          have hg := (findL_good es name _ hwf hfind).1
          rcases List.mem_cons.mp hs with hh | ht
          · rw [hh]; exact hg
          · simp at ht
    | cons n2 rest2 =>
      simp only [filePathAcc] at h
      cases hfind : findL es name with
      | none => rw [hfind] at h; simp at h
      | some sub =>
        rw [hfind] at h
        cases sub with
        | file ok content => simp at h
        | dir b es2 =>
          cases b with
          | false => simp at h
          | true =>
            simp only [Bool.and_eq_true, Bool.not_eq_true'] at h
            obtain ⟨hg, hwfs⟩ := findL_good es name _ hwf hfind
            have hwl2 : wfL es2 = true := by simpa [wfT] using hwfs
            rcases List.mem_cons.mp hs with hh | ht
            · rw [hh]; exact hg
            · exact ih (d ++ [name]) es2 w hwl2 h.2 s ht

theorem filePathAcc_not_mem (sc : Scanner) :
    ∀ (p d : List String) (es : FSList),
      wfL es = true → filePathAcc sc d es p false = true →
      ¬ ((d ++ p) ∈ (accEntriesS sc d es).map (fun f => f.1)) := by
  intro p
  induction p with
  | nil => intro d es _ h; simp [filePathAcc] at h
  | cons name rest ih =>
    intro d es hwf h hmem
    obtain ⟨q, hq, hqp⟩ := List.mem_map.mp hmem
    obtain ⟨nm, sub, hfind, hskip, hwfs, hqt⟩ :=
      mem_accEntriesS_cases sc d es q hwf hq
    obtain ⟨suf, hshape, _⟩ := accTreeS_shape sc d nm sub hwfs q hqt
    have hpe : d ++ nm :: suf = d ++ name :: rest := by rw [← hshape, hqp]
    have hcons := List.append_cancel_left hpe
    have hnm : nm = name := (List.cons.injEq _ _ _ _).mp hcons |>.1
    have hsuf : suf = rest := (List.cons.injEq _ _ _ _).mp hcons |>.2
    subst hnm
    subst hsuf
    cases suf with
    | nil =>
      simp only [filePathAcc] at h
      rw [hfind] at h
      cases sub with
      | dir b es2 => simp at h
      | file ok content =>
        simp only [Bool.and_eq_true, Bool.not_eq_true'] at h
        have hok : ok = false := by simpa using h.2
        subst hok
        simp [accTreeS] at hqt
    | cons n2 rest2 =>
      simp only [filePathAcc] at h
      rw [hfind] at h
      cases sub with
      | file ok content => simp at h
      | dir b es2 =>
        cases b with
        | false => simp at h
        | true =>
          simp only [Bool.and_eq_true, Bool.not_eq_true'] at h
          have hwl2 : wfL es2 = true := by simpa [wfT] using hwfs
          apply ih (d ++ [nm]) es2 hwl2 h.2
          apply List.mem_map.mpr
          refine ⟨q, by simpa [accTreeS] using hqt, ?_⟩
          rw [hshape, List.append_assoc]
          rfl

/-- C9: on a well-formed tree whose directories are all listable, the
scan completes; every reachable, allow-listed file whose stat/read
succeeds contributes a Node with its relative id, while a reachable,
allow-listed file whose stat/read fails contributes no Node and no
Links (its id appears as no node id and no link source). -/
theorem c9_per_file_error_isolation (sc : Scanner) (p : List String)
    (hwf : wfT sc.fs = true) (hadl : adlT sc.fs = true)
    (hdir : rootIsDir sc.fs = true) :
    scanOk sc = true ∧
    (filePathAccRoot sc p true = true →
      joinSegs p ∈ (scanGraph sc).nodes.map Node.id) ∧
    (filePathAccRoot sc p false = true →
      ¬ (joinSegs p ∈ (scanGraph sc).nodes.map Node.id) ∧
      ∀ l ∈ (scanGraph sc).links, ¬ (l.source = joinSegs p)) := by
  cases hfs : sc.fs with
  | file b c => rw [hfs] at hdir; simp [rootIsDir] at hdir
  | dir b es =>
    rw [hfs] at hadl hwf
    simp only [adlT, Bool.and_eq_true] at hadl
    obtain ⟨hb, hal⟩ := hadl
    subst hb
    have hwl : wfL es = true := by simpa [wfT] using hwf
    have hok := scanEntries_adl sc [] es hal
    have hscan : scan sc =
        Except.ok ⟨(scanEntries sc [] es).1.1, (scanEntries sc [] es).1.2⟩ := by
      have h' : scan sc = (if (scanDirectory sc).2 then
          Except.ok ⟨(scanDirectory sc).1.1, (scanDirectory sc).1.2⟩
        else Except.error ()) := rfl
      have hd : scanDirectory sc = scanEntries sc [] es := by
        unfold scanDirectory
        rw [hfs]
      rw [h', hd, hok]
      simp
    have hgraph : scanGraph sc =
        ⟨(scanEntries sc [] es).1.1, (scanEntries sc [] es).1.2⟩ := by
      unfold scanGraph
      rw [hscan]
    have hsok : scanOk sc = true := by
      unfold scanOk
      rw [hscan]
    have hnodes : (scanGraph sc).nodes.map Node.id =
        ((accEntriesS sc [] es).map (fun f => f.1)).map joinSegs := by
      rw [hgraph]
      show ((scanEntries sc [] es).1.1).map Node.id = _
      rw [scanEntries_nodes sc [] es hok, List.map_map, List.map_map]
      rfl
    have hroot1 : filePathAccRoot sc p true = filePathAcc sc [] es p true := by
      unfold filePathAccRoot
      rw [hfs]
    have hroot2 : filePathAccRoot sc p false = filePathAcc sc [] es p false := by
      unfold filePathAccRoot
      rw [hfs]
    refine ⟨hsok, ?_, ?_⟩
    · intro hp
      rw [hroot1] at hp
      have hmem := filePathAcc_mem sc p [] es hp
      rw [hnodes]
      exact List.mem_map.mpr ⟨p, by simpa using hmem, rfl⟩
    · intro hp
      rw [hroot2] at hp
      have hnm := filePathAcc_not_mem sc p [] es hwl hp
      have hgoodp : ∀ s ∈ p, goodName s = true :=
        filePathAcc_good sc p [] es false hwl hp
      have hkey : ¬ (joinSegs p ∈
          ((accEntriesS sc [] es).map (fun f => f.1)).map joinSegs) := by
        intro hin
        obtain ⟨q, hq, hqe⟩ := List.mem_map.mp hin
        have hgoodq : ∀ s ∈ q, goodName s = true := by
          obtain ⟨f, hf, hfp⟩ := List.mem_map.mp hq
          obtain ⟨nm, suf, heq, hnm2, hsuf, _⟩ :=
            accEntriesS_shape sc [] es hwl f hf
          rw [← hfp, heq]
          intro s hs
          rcases List.mem_cons.mp (by simpa using hs) with hh | ht
          · rw [hh]; exact hnm2
          · exact hsuf s ht
        have hqp : q = p := joinSegs_inj hgoodq hgoodp hqe
        rw [hqp] at hq
        exact hnm (by simpa using hq)
      refine ⟨by rw [hnodes]; exact hkey, ?_⟩
      intro l hl heq
      have hl' : l ∈ (scanEntries sc [] es).1.2 := by
        rw [hgraph] at hl
        exact hl
      have hsrc := (scanEntries_links sc [] es l hl').1
      have hsrc2 : l.source ∈ (scanGraph sc).nodes.map Node.id := by
        rw [hgraph]
        exact hsrc
      rw [heq, hnodes] at hsrc2
      exact hkey hsrc2

theorem c9_per_file_error_isolation_wit :
    scanOk isolationSc = true ∧
    "a.ts" ∈ (scanGraph isolationSc).nodes.map Node.id ∧
    ¬ ("b.ts" ∈ (scanGraph isolationSc).nodes.map Node.id) ∧
    (scanGraph isolationSc).links.all (fun l => !(l.source == "b.ts")) = true := by
  have ha := c9_per_file_error_isolation isolationSc ["a.ts"]
    (by decide) (by decide) (by decide)
  have hb := c9_per_file_error_isolation isolationSc ["b.ts"]
    (by decide) (by decide) (by decide)
  have hbneg := hb.2.2 (by decide)
  refine ⟨ha.1, ?_, ?_, ?_⟩
  · exact ha.2.1 (by decide)
  · exact hbneg.1
  · rw [List.all_eq_true]
    intro l hl
    have hns := hbneg.2 l hl
    cases hsb : l.source == "b.ts"
    · rfl
    · exact absurd (eq_of_beq hsb) hns

end ProjectScanner
